import Mathlib

/-!
A shallow embedding of the core logic of `hourlies.py` (the hourly work
logger): entry filename generation (`save_entry`), most-recent-entry lookup
(`get_last_entry`), day-folder resolution (`start_new_day`), the timer
loop's next-trigger computation and stop flag (`timer_loop` / `close_app`),
and configuration loading (`Config.load_config`).

Strings model Python strings; comparison, prefix and suffix tests are
modelled over the code-point sequence (`String.data`), matching Python's
code-point-wise semantics. Directories are modelled as association lists of
entry names; reading a file yields `Option String` where `none` models a
read failure (`except: return None`).
-/

namespace Hourlies

/-- Lexicographic code-point comparison of character lists, as Python
compares strings. `charListLe a b` is `a <= b`. -/
def charListLe : List Char → List Char → Bool
  | [], _ => true
  | _ :: _, [] => false
  | a :: as, b :: bs =>
    if a.toNat < b.toNat then true
    else if b.toNat < a.toNat then false
    else charListLe as bs

/-- Python string `<=` (lexicographic by code point). -/
def strLe (a b : String) : Bool := charListLe a.data b.data

/-- The ordering relation Python's `list.sort()` uses on strings. -/
def StrLe (a b : String) : Prop := strLe a b = true

instance : DecidableRel StrLe := fun a b => by unfold StrLe; infer_instance

/-- Python `list.sort()` on strings: sort by `strLe`. -/
def sortStr (l : List String) : List String := List.insertionSort StrLe l

/-- Python `str.startswith`. -/
def strStartsWith (s p : String) : Bool := p.data.isPrefixOf s.data

/-- Python `str.endswith`. -/
def strEndsWith (s p : String) : Bool := p.data.isSuffixOf s.data

/-- A wall-clock datetime at minute precision, as used by
`datetime.now().strftime("%Y%m%d%H%M")`.  Seconds and microseconds are
dropped: the filename format ignores them and adding whole minutes never
changes them. -/
structure DateTime where
  year : Nat
  month : Nat
  day : Nat
  hour : Nat
  minute : Nat
deriving DecidableEq

/-- Gregorian leap-year rule used by Python's `datetime`. -/
def isLeapYear (y : Nat) : Bool :=
  y % 4 == 0 && (y % 100 != 0 || y % 400 == 0)

/-- Number of days in a month (0 for an out-of-range month). -/
def daysInMonth (y m : Nat) : Nat :=
  match m with
  | 1 => 31
  | 2 => if isLeapYear y then 29 else 28
  | 3 => 31
  | 4 => 30
  | 5 => 31
  | 6 => 30
  | 7 => 31
  | 8 => 31
  | 9 => 30
  | 10 => 31
  | 11 => 30
  | 12 => 31
  | _ => 0

/-- The datetime invariant maintained by Python's `datetime` type. -/
def Valid (d : DateTime) : Prop :=
  1 ≤ d.month ∧ d.month ≤ 12 ∧ 1 ≤ d.day ∧ d.day ≤ daysInMonth d.year d.month ∧
    d.hour ≤ 23 ∧ d.minute ≤ 59

instance (d : DateTime) : Decidable (Valid d) := by
  unfold Valid; infer_instance

/-- `d + timedelta(minutes=1)` on a valid datetime. -/
def addOneMinute (d : DateTime) : DateTime :=
  if d.minute < 59 then { d with minute := d.minute + 1 }
  else if d.hour < 23 then { d with minute := 0, hour := d.hour + 1 }
  else if d.day < daysInMonth d.year d.month then
    { d with minute := 0, hour := 0, day := d.day + 1 }
  else if d.month < 12 then
    { d with minute := 0, hour := 0, day := 1, month := d.month + 1 }
  else
    { d with minute := 0, hour := 0, day := 1, month := 1, year := d.year + 1 }

/-- `d + timedelta(minutes=k)`. -/
def addMinutes (d : DateTime) : Nat → DateTime
  | 0 => d
  | k + 1 => addOneMinute (addMinutes d k)

/-- The decimal digit characters produced by `strftime` field formatting. -/
def digitChar (n : Nat) : Char :=
  match n with
  | 0 => '0'
  | 1 => '1'
  | 2 => '2'
  | 3 => '3'
  | 4 => '4'
  | 5 => '5'
  | 6 => '6'
  | 7 => '7'
  | 8 => '8'
  | 9 => '9'
  | _ => '*'

/-- Two-digit zero-padded decimal (`%m`, `%d`, `%H`, `%M`) for `n < 100`. -/
def pad2 (n : Nat) : List Char := [digitChar (n / 10), digitChar (n % 10)]

/-- Four-digit zero-padded decimal (`%Y`) for `n < 10000`. -/
def pad4 (n : Nat) : List Char :=
  [digitChar (n / 1000), digitChar (n / 100 % 10), digitChar (n / 10 % 10),
    digitChar (n % 10)]

/-- `d.strftime("%Y%m%d%H%M")`. -/
def timeStamp (d : DateTime) : String :=
  String.mk (pad4 d.year ++ pad2 d.month ++ pad2 d.day ++ pad2 d.hour ++ pad2 d.minute)

/-- The entry filename derived from a datetime:
`strftime("%Y%m%d%H%M") + ".hourlies"`. -/
def entryName (d : DateTime) : String := timeStamp d ++ ".hourlies"

/-- The filename-collision loop of `save_entry` (lines 207-219): starting at
minute offset `k`, return the first filename `(now + offset).strftime(...)
+ ".hourlies"` that does not already exist in the folder.  `fuel` bounds the
search so the model stays total; `chooseFilename` supplies enough fuel for
the search to always succeed on valid input. -/
def searchName (existing : List String) (now : DateTime) : Nat → Nat → Option String
  | _, 0 => none
  | k, fuel + 1 =>
    let nm := entryName (addMinutes now k)
    if nm ∈ existing then searchName existing now (k + 1) fuel else some nm

/-- The filename chosen by `save_entry` for a folder whose entries are
`existing`, at wall-clock time `now`. -/
def chooseFilename (existing : List String) (now : DateTime) : Option String :=
  searchName existing now 0 (existing.length + 1)

/-- The characters stripped by Python's `str.strip()` (Unicode whitespace). -/
def isPySpace (c : Char) : Bool :=
  (9 ≤ c.toNat && c.toNat ≤ 13) || (28 ≤ c.toNat && c.toNat ≤ 32) ||
    c.toNat == 133 || c.toNat == 160 || c.toNat == 5760 ||
    (8192 ≤ c.toNat && c.toNat ≤ 8202) || c.toNat == 8232 || c.toNat == 8233 ||
    c.toNat == 8239 || c.toNat == 8287 || c.toNat == 12288

/-- Python `str.strip()`: drop leading and trailing whitespace. -/
def stripPy (s : String) : String :=
  String.mk (((s.data.dropWhile isPySpace).reverse.dropWhile isPySpace).reverse)

/-- A day folder's contents: entry names paired with the result of reading
them (`none` models a file whose read raises, i.e. the `except` branch). -/
abbrev DayDir := List (String × Option String)

/-- `HourlyWorklogWindow.get_last_entry` (lines 158-174): `none` when the
folder does not exist, when it holds no `.hourlies` file, or when reading
the selected file fails; otherwise the content of the lexicographically
last `.hourlies` file.  Total: it never raises. -/
def get_last_entry (dirExists : Bool) (files : DayDir) : Option String :=
  if !dirExists then none
  else
    let names := (files.map Prod.fst).filter (fun f => strEndsWith f ".hourlies")
    match (sortStr names).getLast? with
    | none => none
    | some last => (files.lookup last).join

/-- The observable outcome of `save_entry`: either no file is written (the
user declined the reuse fallback or no previous entry existed), or a file
`filename` with content `content` is written, `dir` being the folder
contents afterwards. -/
inductive SaveOutcome where
  | noWrite
  | wrote (dir : DayDir) (filename content : String)
deriving DecidableEq

/-- `HourlyWorklogWindow.save_entry` (lines 185-231).  `raw` is the text
widget content, `reuseAnswer` the user's answer to the "Use same as last
hour?" dialog, `dirExists`/`dir` the pre-save folder state, `now` the
wall clock.  The text is stripped; if empty, the last entry (if any, and if
the user accepts) is reused as content; the filename is the first
collision-free candidate from `now`; the file is appended to the folder.
`none` models only exhaustion of the search fuel, which the theorems show
cannot happen on valid input. -/
def save_entry (dirExists : Bool) (dir : DayDir) (raw : String)
    (reuseAnswer : Bool) (now : DateTime) : Option SaveOutcome :=
  let stripped := stripPy raw
  let content? : Option String :=
    if stripped = "" then
      if reuseAnswer then get_last_entry dirExists dir else none
    else some stripped
  match content? with
  | none => some .noWrite
  | some content =>
    match chooseFilename (dir.map Prod.fst) now with
    | some nm => some (.wrote (dir ++ [(nm, some content)]) nm content)
    | none => none

/-- `f"{n:03d}"`: decimal, zero-padded on the left to at least 3 digits. -/
def pad3 (n : Nat) : String :=
  if n < 10 then "00" ++ toString n
  else if n < 100 then "0" ++ toString n
  else toString n

/-- The day-folder name `f"{day_folder_base}.{folder_num:03d}"` (basename). -/
def candName (today : String) (n : Nat) : String := today ++ "." ++ pad3 n

/-- The `while os.path.exists(...)` loop of `start_new_day` (lines 305-309):
the first sequence number `n` (counting up from the start value) whose
candidate name is not an existing entry.  Fuel keeps the model total. -/
def firstFreeNum (names : List String) (today : String) : Nat → Nat → Option Nat
  | _, 0 => none
  | n, fuel + 1 =>
    if candName today n ∈ names then firstFreeNum names today (n + 1) fuel
    else some n

/-- The root worklog directory's contents: entry names paired with
`os.path.isdir`. -/
abbrev RootDir := List (String × Bool)

/-- `HourliesApp.start_new_day`, folder-resolution part (lines 294-319).
Returns the root directory contents afterwards and the adopted day folder
(as its basename).  If any directory whose name starts with `today` exists,
the lexicographically greatest is adopted and nothing is created; otherwise
the first free candidate `<today>.<NNN>` is created and adopted. -/
def start_new_day (entries : RootDir) (today : String) :
    Option (RootDir × String) :=
  let names := entries.map Prod.fst
  let ff := firstFreeNum names today 1 (entries.length + 1)
  let existing :=
    (entries.filter (fun e => e.2 && strStartsWith e.1 today)).map Prod.fst
  match (sortStr existing).getLast? with
  | some last => some (entries, last)
  | none =>
    match ff with
    | some n => some (entries ++ [(candName today n, true)], candName today n)
    | none => none

/-- Microseconds per hour. -/
def USEC_PER_HOUR : Nat := 3600000000

/-- Microseconds per minute. -/
def USEC_PER_MIN : Nat := 60000000

/-- The next-trigger computation of `timer_loop` (lines 342-347), on absolute
time in microseconds (hour-aligned epoch): `next_hour =
now.replace(minute=m, second=0, microsecond=0)`, advanced by one hour if
`now >= next_hour`. -/
def nextTrigger (now m : Nat) : Nat :=
  let nh := now / USEC_PER_HOUR * USEC_PER_HOUR + m * USEC_PER_MIN
  if nh ≤ now then nh + USEC_PER_HOUR else nh

/-- The `timer_loop` body (lines 339-356) as a trace over the successive
reads of `self.timer_active`: `r i` is the value of the flag at the `i`-th
read.  Each iteration reads the flag at the `while` head (read `i`; exit
when false), sleeps, reads it again (read `i+1`), and invokes the callback
exactly when that read is true.  The result lists the read indices at which
the callback fired; `fuel` bounds the number of iterations simulated. -/
def timerFires (r : Nat → Bool) : Nat → Nat → List Nat
  | 0, _ => []
  | fuel + 1, i =>
    if r i then
      (if r (i + 1) then [i + 1] else []) ++ timerFires r fuel (i + 2)
    else []

/-- The state of the configuration file as `Config.load_config` observes
it: missing, unreadable-or-invalid (any exception while opening, reading or
parsing, caught by the bare `except`), or readable with key/value pairs
`kvs` (a Python dict, modelled as an association list with distinct keys). -/
inductive ConfigSource (α : Type) where
  | missing
  | unreadable
  | readable (kvs : List (String × α))

/-- The merge loop of `load_config` (lines 60-62): for each default
key/value, insert it when the key is absent from the loaded config. -/
def mergeDefaults {α : Type} (defaults cfg : List (String × α)) :
    List (String × α) :=
  defaults.foldl
    (fun c kv => if (c.lookup kv.1).isSome then c else c ++ [kv]) cfg

/-- `Config.load_config` (lines 53-68): a missing file yields (and saves)
the defaults; an unreadable or invalid file yields the defaults; a readable
file is merged with the defaults for any missing keys.  Total: it never
raises. -/
def load_config {α : Type} (defaults : List (String × α)) :
    ConfigSource α → List (String × α)
  | .missing => defaults
  | .unreadable => defaults
  | .readable kvs => mergeDefaults defaults kvs

/-- A measure strictly increasing along `addOneMinute` on valid datetimes:
lexicographic value of (year, month, day, hour, minute). -/
def dtMeasure (d : DateTime) : Nat :=
  (((d.year * 13 + d.month) * 32 + d.day) * 24 + d.hour) * 60 + d.minute

/-- The numeric value of a digit character. -/
def charDigitVal (c : Char) : Nat := c.toNat - 48

/-! ### Lemmas about datetime arithmetic and the filename format -/

lemma daysInMonth_le (y m : Nat) : daysInMonth y m ≤ 31 := by
  unfold daysInMonth
  split <;> first | omega | (split <;> omega)

lemma daysInMonth_pos (y m : Nat) (h1 : 1 ≤ m) (h2 : m ≤ 12) :
    1 ≤ daysInMonth y m := by
  interval_cases m <;> simp only [daysInMonth] <;>
    first | omega | (split <;> omega)

lemma addOneMinute_valid (d : DateTime) (h : Valid d) : Valid (addOneMinute d) := by
  obtain ⟨h1, h2, h3, h4, h5, h6⟩ := h
  unfold addOneMinute
  split_ifs with c1 c2 c3 c4 <;>
    refine ⟨?_, ?_, ?_, ?_, ?_, ?_⟩ <;> dsimp only <;>
    first
      | omega
      | exact h4
      | exact daysInMonth_pos _ _ (by omega) (by omega)

lemma dtMeasure_lt (d : DateTime) (h : Valid d) :
    dtMeasure d < dtMeasure (addOneMinute d) := by
  obtain ⟨h1, h2, h3, h4, h5, h6⟩ := h
  have hd31 : d.day ≤ 31 := le_trans h4 (daysInMonth_le _ _)
  unfold addOneMinute dtMeasure
  split_ifs with c1 c2 c3 c4 <;> dsimp only <;> nlinarith

lemma addOneMinute_year_le (d : DateTime) : d.year ≤ (addOneMinute d).year := by
  unfold addOneMinute
  split_ifs <;> dsimp only <;> omega

lemma addMinutes_valid (d : DateTime) (h : Valid d) (k : Nat) :
    Valid (addMinutes d k) := by
  induction k with
  | zero => exact h
  | succ k ih => exact addOneMinute_valid _ ih

lemma addMinutes_year_mono (d : DateTime) {a b : Nat} (hab : a ≤ b) :
    (addMinutes d a).year ≤ (addMinutes d b).year := by
  induction b with
  | zero =>
    have ha : a = 0 := Nat.le_zero.mp hab
    subst ha; exact le_refl _
  | succ b ih =>
    rcases Nat.eq_or_lt_of_le hab with heq | hlt
    · subst heq; exact le_refl _
    · exact le_trans (ih (Nat.lt_succ_iff.mp hlt)) (addOneMinute_year_le _)

lemma dtMeasure_strict_mono (d : DateTime) (h : Valid d) {a b : Nat} (hab : a < b) :
    dtMeasure (addMinutes d a) < dtMeasure (addMinutes d b) := by
  induction b with
  | zero => omega
  | succ b ih =>
    have hb : a ≤ b := Nat.lt_succ_iff.mp hab
    rcases Nat.lt_or_ge a b with hlt | hge
    · exact lt_trans (ih hlt) (dtMeasure_lt _ (addMinutes_valid d h b))
    · have : a = b := by omega
      subst this
      exact dtMeasure_lt _ (addMinutes_valid d h a)

lemma charDigitVal_digitChar (n : Nat) (h : n ≤ 9) :
    charDigitVal (digitChar n) = n := by
  interval_cases n <;> rfl

lemma digitChar_inj {a b : Nat} (ha : a ≤ 9) (hb : b ≤ 9)
    (h : digitChar a = digitChar b) : a = b := by
  have := congrArg charDigitVal h
  rwa [charDigitVal_digitChar a ha, charDigitVal_digitChar b hb] at this

lemma timeStamp_inj (d e : DateTime) (hd : Valid d) (he : Valid e)
    (hdy : d.year ≤ 9999) (hey : e.year ≤ 9999)
    (h : timeStamp d = timeStamp e) : d = e := by
  obtain ⟨hd1, hd2, hd3, hd4, hd5, hd6⟩ := hd
  obtain ⟨he1, he2, he3, he4, he5, he6⟩ := he
  have hdd : d.day ≤ 31 := le_trans hd4 (daysInMonth_le _ _)
  have hed : e.day ≤ 31 := le_trans he4 (daysInMonth_le _ _)
  have hlist := congrArg String.data h
  simp only [timeStamp, pad4, pad2, List.cons_append, List.nil_append,
    List.cons.injEq, and_true] at hlist
  obtain ⟨y1, y2, y3, y4, m1, m2, dy1, dy2, hr1, hr2, mi1, mi2⟩ := hlist
  have e1 := digitChar_inj (by omega) (by omega) y1
  have e2 := digitChar_inj (by omega) (by omega) y2
  have e3 := digitChar_inj (by omega) (by omega) y3
  have e4 := digitChar_inj (by omega) (by omega) y4
  have e5 := digitChar_inj (by omega) (by omega) m1
  have e6 := digitChar_inj (by omega) (by omega) m2
  have e7 := digitChar_inj (by omega) (by omega) dy1
  have e8 := digitChar_inj (by omega) (by omega) dy2
  have e9 := digitChar_inj (by omega) (by omega) hr1
  have e10 := digitChar_inj (by omega) (by omega) hr2
  have e11 := digitChar_inj (by omega) (by omega) mi1
  have e12 := digitChar_inj (by omega) (by omega) mi2
  obtain ⟨dy, dmo, dd, dh, dmi⟩ := d
  obtain ⟨ey, emo, ed, eh, emi⟩ := e
  simp only at *
  congr 1 <;> omega

lemma entryName_inj (d e : DateTime) (hd : Valid d) (he : Valid e)
    (hdy : d.year ≤ 9999) (hey : e.year ≤ 9999)
    (h : entryName d = entryName e) : d = e := by
  apply timeStamp_inj d e hd he hdy hey
  have hdata := congrArg String.data h
  simp only [entryName, String.data_append] at hdata
  have := List.append_cancel_right hdata
  cases hft : timeStamp d with
  | mk l =>
    cases hfe : timeStamp e with
    | mk l2 =>
      simp [hft, hfe] at this ⊢
      rw [this]

lemma exists_free_name (f : Nat → String) (L : List String)
    (hinj : ∀ i j, i ≤ L.length → j ≤ L.length → f i = f j → i = j) :
    ∃ k, k ≤ L.length ∧ f k ∉ L := by
  by_contra hc
  push_neg at hc
  have hmap : ∀ i ∈ Finset.range (L.length + 1), f i ∈ L.toFinset := by
    intro i hi
    rw [List.mem_toFinset]
    exact hc i (Nat.lt_succ_iff.mp (Finset.mem_range.mp hi))
  have hinj' : Set.InjOn f (Finset.range (L.length + 1)) := by
    intro i hi j hj hij
    simp only [Finset.coe_range, Set.mem_Iio] at hi hj
    exact hinj i j (by omega) (by omega) hij
  have h1 := Finset.card_le_card_of_injOn f hmap hinj'
  rw [Finset.card_range] at h1
  have h2 := List.toFinset_card_le L
  omega

lemma searchName_free (existing : List String) (now : DateTime) :
    ∀ fuel k,
      (∃ j, k ≤ j ∧ j < k + fuel ∧ entryName (addMinutes now j) ∉ existing) →
      ∃ nm, searchName existing now k fuel = some nm ∧ nm ∉ existing := by
  intro fuel
  induction fuel with
  | zero =>
    rintro k ⟨j, hj1, hj2, _⟩
    omega
  | succ fuel ih =>
    rintro k ⟨j, hj1, hj2, hj3⟩
    by_cases hmem : entryName (addMinutes now k) ∈ existing
    · have hjk : j ≠ k := by rintro rfl; exact hj3 hmem
      have hrec := ih (k + 1) ⟨j, by omega, by omega, hj3⟩
      simpa [searchName, hmem] using hrec
    · exact ⟨_, by simp [searchName, hmem], hmem⟩

lemma chooseFilename_spec (existing : List String) (now : DateTime)
    (hv : Valid now) (hy0 : 1000 ≤ now.year)
    (hyN : (addMinutes now existing.length).year ≤ 9999) :
    ∃ nm, chooseFilename existing now = some nm ∧ nm ∉ existing := by
  have hyk : ∀ k, k ≤ existing.length → (addMinutes now k).year ≤ 9999 :=
    fun k hk => le_trans (addMinutes_year_mono now hk) hyN
  have hyk0 : ∀ k, 1000 ≤ (addMinutes now k).year := by
    intro k
    have := addMinutes_year_mono now (Nat.zero_le k)
    simpa [addMinutes] using le_trans hy0 this
  have hinj : ∀ i j, i ≤ existing.length → j ≤ existing.length →
      entryName (addMinutes now i) = entryName (addMinutes now j) → i = j := by
    intro i j hi hj hij
    by_contra hne
    have hd : addMinutes now i = addMinutes now j :=
      entryName_inj _ _ (addMinutes_valid now hv i) (addMinutes_valid now hv j)
        (hyk i hi) (hyk j hj) hij
    rcases Nat.lt_or_ge i j with hlt | hge
    · have := dtMeasure_strict_mono now hv hlt
      rw [hd] at this
      omega
    · have hlt : j < i := by omega
      have := dtMeasure_strict_mono now hv hlt
      rw [hd] at this
      omega
  obtain ⟨k, hk, hfree⟩ :=
    exists_free_name (fun k => entryName (addMinutes now k)) existing hinj
  exact searchName_free existing now (existing.length + 1) 0 ⟨k, by omega, by omega, hfree⟩

/-! ### Lemmas about string ordering, sorting and association-list lookup -/

lemma charListLe_cons (a b : Char) (as bs : List Char) :
    charListLe (a :: as) (b :: bs) = true ↔
      (a.toNat < b.toNat ∨ (a.toNat = b.toNat ∧ charListLe as bs = true)) := by
  have hstep : charListLe (a :: as) (b :: bs) =
      if a.toNat < b.toNat then true
      else if b.toNat < a.toNat then false else charListLe as bs := rfl
  rw [hstep]
  split_ifs with h1 h2
  · simp [h1]
  · have hne : a.toNat ≠ b.toNat := by omega
    simp [h1, hne]
  · have heq : a.toNat = b.toNat := by omega
    simp only [heq, lt_self_iff_false, false_or, eq_self_iff_true, true_and]

lemma charListLe_refl : ∀ l : List Char, charListLe l l = true
  | [] => rfl
  | a :: as => by
    rw [charListLe_cons]
    exact Or.inr ⟨rfl, charListLe_refl as⟩

lemma charListLe_trans :
    ∀ a b c : List Char, charListLe a b = true → charListLe b c = true →
      charListLe a c = true
  | [], _, _, _, _ => rfl
  | _ :: _, [], _, h, _ => by simp [charListLe] at h
  | _ :: _, _ :: _, [], _, h => by simp [charListLe] at h
  | a :: as, b :: bs, c :: cs, h1, h2 => by
    rw [charListLe_cons] at h1 h2 ⊢
    rcases h1 with h1 | ⟨h1, h1r⟩ <;> rcases h2 with h2 | ⟨h2, h2r⟩
    · exact Or.inl (by omega)
    · exact Or.inl (by omega)
    · exact Or.inl (by omega)
    · exact Or.inr ⟨by omega, charListLe_trans as bs cs h1r h2r⟩

lemma charListLe_total :
    ∀ a b : List Char, charListLe a b = true ∨ charListLe b a = true
  | [], _ => Or.inl rfl
  | _ :: _, [] => Or.inr rfl
  | a :: as, b :: bs => by
    rw [charListLe_cons, charListLe_cons]
    rcases Nat.lt_trichotomy a.toNat b.toNat with h | h | h
    · exact Or.inl (Or.inl h)
    · rcases charListLe_total as bs with hr | hr
      · exact Or.inl (Or.inr ⟨h, hr⟩)
      · exact Or.inr (Or.inr ⟨h.symm, hr⟩)
    · exact Or.inr (Or.inl h)

instance : IsTotal String StrLe :=
  ⟨fun a b => charListLe_total a.data b.data⟩

instance : IsTrans String StrLe :=
  ⟨fun a b c => charListLe_trans a.data b.data c.data⟩

instance : IsRefl String StrLe := ⟨fun a => charListLe_refl a.data⟩

lemma pairwise_strLe_getLast :
    ∀ (l : List String) (h : l ≠ []), l.Pairwise StrLe →
      ∀ x ∈ l, StrLe x (l.getLast h)
  | [], h, _, _, _ => absurd rfl h
  | a :: t, _, hp, x, hx => by
    rcases List.pairwise_cons.mp hp with ⟨ha, hp'⟩
    cases t with
    | nil =>
      rcases List.mem_singleton.mp hx with rfl
      exact IsRefl.refl x
    | cons b t' =>
      rw [List.getLast_cons (by simp)]
      rcases List.mem_cons.mp hx with rfl | hx'
      · exact ha _ (List.getLast_mem _)
      · exact pairwise_strLe_getLast (b :: t') (by simp) hp' x hx'

lemma sortStr_getLast_max (l : List String) (h : l ≠ []) :
    ∃ m, (sortStr l).getLast? = some m ∧ m ∈ l ∧ ∀ x ∈ l, StrLe x m := by
  have hperm : (sortStr l).Perm l := List.perm_insertionSort StrLe l
  have hne : sortStr l ≠ [] := by
    intro hnil
    have hlen := hperm.length_eq
    rw [hnil] at hlen
    simp only [List.length_nil] at hlen
    exact h (List.length_eq_zero.mp hlen.symm)
  have hsorted : (sortStr l).Pairwise StrLe := List.sorted_insertionSort StrLe l
  refine ⟨(sortStr l).getLast hne, List.getLast?_eq_getLast _ hne, ?_, ?_⟩
  · exact hperm.mem_iff.mp (List.getLast_mem hne)
  · intro x hx
    exact pairwise_strLe_getLast _ hne hsorted x (hperm.mem_iff.mpr hx)

lemma lookup_append_left {α β : Type} [BEq α] (l₁ l₂ : List (α × β)) (k : α) (v : β)
    (h : l₁.lookup k = some v) : (l₁ ++ l₂).lookup k = some v := by
  induction l₁ with
  | nil => simp [List.lookup] at h
  | cons e l₁ ih =>
    obtain ⟨ek, ev⟩ := e
    simp only [List.cons_append, List.lookup_cons] at h ⊢
    cases hek : k == ek with
    | true => simpa [hek] using h
    | false =>
      simp only [hek] at h ⊢
      exact ih h

lemma lookup_append_right {α β : Type} [BEq α] (l₁ l₂ : List (α × β)) (k : α)
    (h : l₁.lookup k = none) : (l₁ ++ l₂).lookup k = l₂.lookup k := by
  induction l₁ with
  | nil => rfl
  | cons e l₁ ih =>
    obtain ⟨ek, ev⟩ := e
    simp only [List.cons_append, List.lookup_cons] at h ⊢
    cases hek : k == ek with
    | true => simp [hek] at h
    | false =>
      simp only [hek] at h ⊢
      exact ih h

lemma lookup_none_of_not_mem_keys {β : Type} (l : List (String × β)) (k : String)
    (h : k ∉ l.map Prod.fst) : l.lookup k = none := by
  induction l with
  | nil => rfl
  | cons e l ih =>
    obtain ⟨ek, ev⟩ := e
    simp only [List.map_cons, List.mem_cons] at h
    push_neg at h
    rw [List.lookup_cons]
    have hek : (k == ek) = false := beq_eq_false_iff_ne.mpr h.1
    simp only [hek]
    exact ih h.2

lemma lookup_append_fresh {β : Type} (l : List (String × β)) (k : String) (v : β)
    (h : k ∉ l.map Prod.fst) : (l ++ [(k, v)]).lookup k = some v := by
  rw [lookup_append_right _ _ _ (lookup_none_of_not_mem_keys l k h)]
  simp [List.lookup]

/-! ### Lemmas about the configuration merge -/

lemma mergeDefaults_cons {α : Type} (dk : String) (dv : α)
    (ds c : List (String × α)) :
    mergeDefaults ((dk, dv) :: ds) c =
      mergeDefaults ds (if (c.lookup dk).isSome then c else c ++ [(dk, dv)]) := by
  rw [mergeDefaults, mergeDefaults, List.foldl_cons]

lemma mergeDefaults_lookup_present {α : Type} (ds : List (String × α)) :
    ∀ (c : List (String × α)) (k : String) (v : α), c.lookup k = some v →
      (mergeDefaults ds c).lookup k = some v := by
  induction ds with
  | nil => intro c k v h; exact h
  | cons d ds ih =>
    obtain ⟨dk, dv⟩ := d
    intro c k v h
    rw [mergeDefaults_cons]
    cases hd : c.lookup dk with
    | some w => simpa [hd] using ih c k v h
    | none =>
      simp only [hd, Option.isSome_none, Bool.false_eq_true, if_false]
      exact ih _ k v (lookup_append_left _ _ _ _ h)

lemma mergeDefaults_lookup_absent {α : Type} (ds : List (String × α)) :
    ∀ (c : List (String × α)) (k : String), c.lookup k = none →
      (mergeDefaults ds c).lookup k = ds.lookup k := by
  induction ds with
  | nil => intro c k h; simpa [mergeDefaults] using h
  | cons d ds ih =>
    obtain ⟨dk, dv⟩ := d
    intro c k h
    rw [mergeDefaults_cons, List.lookup_cons]
    by_cases hk : k = dk
    · subst hk
      rw [h]
      simp only [Option.isSome_none, Bool.false_eq_true, if_false,
        beq_self_eq_true]
      have hlook : (c ++ [(k, dv)]).lookup k = some dv := by
        rw [lookup_append_right _ _ _ h, List.lookup_cons, beq_self_eq_true]
      exact mergeDefaults_lookup_present ds _ k dv hlook
    · have hkd : (k == dk) = false := beq_eq_false_iff_ne.mpr hk
      simp only [hkd]
      cases hd : c.lookup dk with
      | some w => simpa [hd] using ih c k h
      | none =>
        simp only [hd, Option.isSome_none, Bool.false_eq_true, if_false]
        have happ : (c ++ [(dk, dv)]).lookup k = none := by
          rw [lookup_append_right _ _ _ h, List.lookup_cons, hkd]; rfl
        exact ih _ k happ

/-! ### Helper lemmas about `save_entry`, `start_new_day` and `stripPy` -/

lemma searchName_not_mem (existing : List String) (now : DateTime) :
    ∀ fuel k nm, searchName existing now k fuel = some nm → nm ∉ existing := by
  intro fuel
  induction fuel with
  | zero => intro k nm h; simp [searchName] at h
  | succ fuel ih =>
    intro k nm h
    by_cases hmem : entryName (addMinutes now k) ∈ existing
    · exact ih (k + 1) nm (by simpa [searchName, hmem] using h)
    · have : nm = entryName (addMinutes now k) := by
        simpa [searchName, hmem] using h.symm
      rw [this]
      exact hmem

lemma chooseFilename_not_mem (existing : List String) (now : DateTime) (nm : String)
    (h : chooseFilename existing now = some nm) : nm ∉ existing :=
  searchName_not_mem existing now _ 0 nm h

lemma save_entry_wrote (dirExists : Bool) (dir : DayDir) (raw : String)
    (reuse : Bool) (now : DateTime) (dir' : DayDir) (nm c : String)
    (h : save_entry dirExists dir raw reuse now = some (.wrote dir' nm c)) :
    chooseFilename (dir.map Prod.fst) now = some nm ∧
      dir' = dir ++ [(nm, some c)] := by
  simp only [save_entry] at h
  cases hcont : (if stripPy raw = "" then
      (if reuse then get_last_entry dirExists dir else none)
    else some (stripPy raw)) with
  | none => rw [hcont] at h; simp at h
  | some content =>
    rw [hcont] at h
    cases hcf : chooseFilename (dir.map Prod.fst) now with
    | none => rw [hcf] at h; simp at h
    | some nm' =>
      rw [hcf] at h
      simp only [Option.some.injEq, SaveOutcome.wrote.injEq] at h
      obtain ⟨hdir, hnm, hc⟩ := h
      subst hnm; subst hc
      exact ⟨rfl, hdir.symm⟩

lemma save_entry_wrote_content (dirExists : Bool) (dir : DayDir) (raw : String)
    (reuse : Bool) (now : DateTime) (dir' : DayDir) (nm c : String)
    (h : save_entry dirExists dir raw reuse now = some (.wrote dir' nm c)) :
    (stripPy raw ≠ "" ∧ c = stripPy raw) ∨
      (stripPy raw = "" ∧ reuse = true ∧
        get_last_entry dirExists dir = some c) := by
  simp only [save_entry] at h
  by_cases hs : stripPy raw = ""
  · right
    refine ⟨hs, ?_, ?_⟩ <;> rw [hs] at h <;> simp only [if_true, if_pos rfl] at h
    · cases hr : reuse
      · rw [hr] at h; simp at h
      · rfl
    · cases hr : reuse
      · rw [hr] at h; simp at h
      · rw [hr] at h
        simp only [if_true, if_pos rfl] at h
        cases hg : get_last_entry dirExists dir with
        | none => rw [hg] at h; simp at h
        | some last =>
          rw [hg] at h
          cases hcf : chooseFilename (dir.map Prod.fst) now with
          | none => rw [hcf] at h; simp at h
          | some nm' =>
            rw [hcf] at h
            simp only [Option.some.injEq, SaveOutcome.wrote.injEq] at h
            rw [h.2.2]
  · left
    refine ⟨hs, ?_⟩
    rw [if_neg hs] at h
    cases hcf : chooseFilename (dir.map Prod.fst) now with
    | none => rw [hcf] at h; simp at h
    | some nm' =>
      rw [hcf] at h
      simp only [Option.some.injEq, SaveOutcome.wrote.injEq] at h
      exact h.2.2.symm

lemma save_entry_succeeds (dirExists : Bool) (dir : DayDir) (raw : String)
    (reuse : Bool) (now : DateTime) (hv : Valid now) (hy0 : 1000 ≤ now.year)
    (hyN : (addMinutes now dir.length).year ≤ 9999) (hs : stripPy raw ≠ "") :
    ∃ nm, save_entry dirExists dir raw reuse now =
        some (.wrote (dir ++ [(nm, some (stripPy raw))]) nm (stripPy raw)) ∧
      nm ∉ dir.map Prod.fst := by
  have hlen : (dir.map Prod.fst).length = dir.length := List.length_map _ _
  obtain ⟨nm, hcf, hfree⟩ :=
    chooseFilename_spec (dir.map Prod.fst) now hv hy0 (by rwa [hlen])
  exact ⟨nm, by simp only [save_entry, if_neg hs, hcf], hfree⟩

lemma strStartsWith_append (p s : String) : strStartsWith (p ++ s) p = true := by
  rw [strStartsWith, String.data_append, List.isPrefixOf_iff_prefix]
  exact List.prefix_append _ _

lemma strStartsWith_cand (today : String) (n : Nat) :
    strStartsWith (candName today n) today = true := by
  rw [candName, String.append_assoc]
  exact strStartsWith_append _ _

lemma sortStr_eq_nil (l : List String) (h : sortStr l = []) : l = [] := by
  have hperm : (sortStr l).Perm l := List.perm_insertionSort StrLe l
  have := hperm.length_eq
  rw [h] at this
  simpa using (List.length_eq_zero.mp this.symm)

lemma getLast?_eq_none {α : Type} (l : List α) (h : l.getLast? = none) : l = [] := by
  cases l with
  | nil => rfl
  | cons a t =>
    rw [List.getLast?_eq_getLast _ (by simp)] at h
    simp at h

lemma stripPy_all_space (raw : String)
    (h : ∀ ch ∈ raw.data, isPySpace ch = true) : stripPy raw = "" := by
  have h1 : raw.data.dropWhile isPySpace = [] := List.dropWhile_eq_nil_iff.mpr h
  rw [stripPy, h1]
  rfl

lemma sortStr_nil : sortStr [] = [] := rfl

lemma sortStr_singleton (a : String) : sortStr [a] = [a] := rfl

/-! ### The claims -/

/-- C1: `save_entry` never overwrites an existing entry file.  Whenever a
save writes a file, its name is not among the files already present and the
folder afterwards is the old folder plus the new file; and whenever the
stripped text is non-empty (with the wall-clock year in the range Python's
`datetime` can format as four digits throughout the search), the save does
write such a file.  The collision loop advances the encoded time by whole
minutes until a free name is found. -/
theorem saveEntry_never_overwrites (dirExists : Bool) (dir : DayDir)
    (raw : String) (reuse : Bool) (now : DateTime) (hv : Valid now)
    (hy0 : 1000 ≤ now.year) (hyN : (addMinutes now dir.length).year ≤ 9999) :
    (∀ dir' nm c, save_entry dirExists dir raw reuse now =
        some (.wrote dir' nm c) →
      nm ∉ dir.map Prod.fst ∧ dir' = dir ++ [(nm, some c)]) ∧
    (stripPy raw ≠ "" →
      ∃ dir' nm, save_entry dirExists dir raw reuse now =
          some (.wrote dir' nm (stripPy raw)) ∧ nm ∉ dir.map Prod.fst) := by
  constructor
  · intro dir' nm c h
    obtain ⟨hcf, hdir⟩ := save_entry_wrote dirExists dir raw reuse now dir' nm c h
    exact ⟨chooseFilename_not_mem _ _ _ hcf, hdir⟩
  · intro hs
    obtain ⟨nm, hsave, hfree⟩ :=
      save_entry_succeeds dirExists dir raw reuse now hv hy0 hyN hs
    exact ⟨_, nm, hsave, hfree⟩

theorem saveEntry_never_overwrites_witness :
    stripPy "did things" ≠ "" ∧
    (∃ dir' nm,
      save_entry true [("202501011200.hourlies", some "x")] "did things" false
          ⟨2025, 1, 1, 12, 0⟩ =
        some (.wrote dir' nm (stripPy "did things")) ∧
      nm ∉ ([("202501011200.hourlies", some "x")] : DayDir).map Prod.fst) := by
  refine ⟨by decide, ?_⟩
  exact (saveEntry_never_overwrites true [("202501011200.hourlies", some "x")]
    "did things" false ⟨2025, 1, 1, 12, 0⟩ (by decide) (by decide) (by decide)).2
    (by decide)

/-- C2: the next trigger computed by `timer_loop` is the next wall-clock
instant strictly in the future whose minute-of-hour equals the trigger
minute and whose seconds and sub-seconds are zero; in particular with
trigger minute 0 and the clock at 10:00:05 (as microseconds since an
hour-aligned epoch) the next trigger is 11:00:00. -/
theorem nextTrigger_correct (now m : Nat) (hm : m ≤ 59) :
    now < nextTrigger now m ∧
    nextTrigger now m % USEC_PER_HOUR = m * USEC_PER_MIN ∧
    (∀ t, now < t → t % USEC_PER_HOUR = m * USEC_PER_MIN →
      nextTrigger now m ≤ t) ∧
    nextTrigger 36005000000 0 = 39600000000 := by
  simp only [nextTrigger, USEC_PER_HOUR, USEC_PER_MIN]
  refine ⟨?_, ?_, ?_, by norm_num⟩
  · split_ifs with h <;> omega
  · split_ifs with h <;> omega
  · intro t ht hmod
    split_ifs with h <;> omega

theorem nextTrigger_correct_witness :
    36005000000 < nextTrigger 36005000000 0 ∧
    nextTrigger 36005000000 0 % USEC_PER_HOUR = 0 * USEC_PER_MIN ∧
    (∀ t, 36005000000 < t → t % USEC_PER_HOUR = 0 * USEC_PER_MIN →
      nextTrigger 36005000000 0 ≤ t) ∧
    nextTrigger 36005000000 0 = 39600000000 :=
  nextTrigger_correct 36005000000 0 (by decide)

/-- C3: once `close_app` has set `timer_active` to false (every read of the
flag from index `s` on returns false), the timer loop fires no further
callback: every fired callback corresponds to a flag read strictly before
`s`.  The loop observes the flag both before sleeping (loop head) and after
waking (before the callback), and exits without firing when either read
sees the stopped state. -/
theorem stop_halts_callbacks (r : Nat → Bool) (s : Nat)
    (hstop : ∀ k, s ≤ k → r k = false) :
    ∀ fuel i j, j ∈ timerFires r fuel i → j < s := by
  intro fuel
  induction fuel with
  | zero => intro i j hj; simp [timerFires] at hj
  | succ fuel ih =>
    intro i j hj
    cases hri : r i with
    | false => simp [timerFires, hri] at hj
    | true =>
      simp only [timerFires, hri, if_true, List.mem_append] at hj
      rcases hj with h1 | h2
      · cases hri1 : r (i + 1) with
        | false => simp [hri1] at h1
        | true =>
          rw [hri1] at h1
          simp only [if_true, List.mem_singleton] at h1
          subst h1
          by_contra hle
          have : r (i + 1) = false := hstop _ (by omega)
          rw [this] at hri1
          exact Bool.false_ne_true hri1
      · exact ih (i + 2) j h2

theorem stop_halts_callbacks_witness :
    timerFires (fun k => decide (k < 3)) 5 0 = [1] ∧
    ∀ j ∈ timerFires (fun k => decide (k < 3)) 5 0, j < 3 := by
  refine ⟨by decide, ?_⟩
  exact stop_halts_callbacks (fun k => decide (k < 3)) 3
    (fun k hk => by simp; omega) 5 0

/-- C4: when at least one directory whose name starts with the date prefix
exists under the worklog root, `start_new_day` adopts the lexicographically
greatest such directory and creates nothing: the root contents are
unchanged and the adopted folder is a maximal element of the prefix
directories. -/
theorem resolve_selects_latest (entries : RootDir) (today : String)
    (h : ∃ e ∈ entries, e.2 = true ∧ strStartsWith e.1 today = true) :
    ∃ name, start_new_day entries today = some (entries, name) ∧
      name ∈ (entries.filter (fun e => e.2 && strStartsWith e.1 today)).map
        Prod.fst ∧
      ∀ x ∈ (entries.filter (fun e => e.2 && strStartsWith e.1 today)).map
        Prod.fst, StrLe x name := by
  obtain ⟨e, he, h2, h3⟩ := h
  have hne :
      (entries.filter (fun e => e.2 && strStartsWith e.1 today)).map
        Prod.fst ≠ [] := by
    have hmem : e ∈ entries.filter (fun e => e.2 && strStartsWith e.1 today) :=
      List.mem_filter.mpr ⟨he, by rw [h2, h3]; rfl⟩
    intro hnil
    have := List.mem_map_of_mem Prod.fst hmem
    rw [hnil] at this
    simp at this
  obtain ⟨m, hlast, hmem, hmax⟩ := sortStr_getLast_max _ hne
  refine ⟨m, ?_, hmem, hmax⟩
  simp only [start_new_day]
  rw [hlast]

theorem resolve_selects_latest_witness :
    start_new_day [("20250101.001", true), ("20250101.002", true)] "20250101" =
      some ([("20250101.001", true), ("20250101.002", true)], "20250101.002") ∧
    (∃ name,
      start_new_day [("20250101.001", true), ("20250101.002", true)]
          "20250101" =
        some ([("20250101.001", true), ("20250101.002", true)], name) ∧
      name ∈ (([("20250101.001", true), ("20250101.002", true)] : RootDir).filter
        (fun e => e.2 && strStartsWith e.1 "20250101")).map Prod.fst ∧
      ∀ x ∈ (([("20250101.001", true), ("20250101.002", true)] : RootDir).filter
        (fun e => e.2 && strStartsWith e.1 "20250101")).map Prod.fst,
        StrLe x name) :=
  ⟨by decide, resolve_selects_latest _ _ ⟨("20250101.001", true), by decide⟩⟩

/-- C5 counterexample: in a root containing only a non-directory entry named
`20250101.001`, no folder for the date exists, yet `start_new_day` for
`20250101` creates and adopts `20250101.002`, not `20250101.001`: the
`while os.path.exists(...)` loop skips sequence numbers used by plain
files, while the claim's premise only excludes directories. -/
theorem resolve_creates_001_cex :
    (∀ e ∈ ([("20250101.001", false)] : RootDir),
      ¬(e.2 = true ∧ strStartsWith e.1 "20250101" = true)) ∧
    start_new_day [("20250101.001", false)] "20250101" =
      some ([("20250101.001", false), ("20250101.002", true)],
        "20250101.002") ∧
    ("20250101.002" : String) ≠ "20250101.001" := by decide

/-- C5 (amended): when no directory whose name starts with the date prefix
exists under the root and no entry (file or directory) named `<date>.001`
exists, `start_new_day` creates the folder `<date>.001` and adopts it. -/
theorem resolve_creates_001 (entries : RootDir) (today : String)
    (hnodir : ∀ e ∈ entries, ¬(e.2 = true ∧ strStartsWith e.1 today = true))
    (hfree : candName today 1 ∉ entries.map Prod.fst) :
    start_new_day entries today =
      some (entries ++ [(candName today 1, true)], candName today 1) := by
  have hfil : entries.filter (fun e => e.2 && strStartsWith e.1 today) = [] := by
    rw [List.filter_eq_nil_iff]
    intro e he hpe
    rw [Bool.and_eq_true] at hpe
    exact hnodir e he hpe
  simp only [start_new_day, hfil, List.map_nil, sortStr_nil, List.getLast?_nil,
    firstFreeNum]
  rw [if_neg hfree]

theorem resolve_creates_001_witness :
    (∀ e ∈ ([("20250101zzz", false), ("other", true)] : RootDir),
      ¬(e.2 = true ∧ strStartsWith e.1 "20250101" = true)) ∧
    candName "20250101" 1 ∉
      ([("20250101zzz", false), ("other", true)] : RootDir).map Prod.fst ∧
    start_new_day [("20250101zzz", false), ("other", true)] "20250101" =
      some ([("20250101zzz", false), ("other", true)] ++
        [(candName "20250101" 1, true)], candName "20250101" 1) :=
  ⟨by decide, by decide,
    resolve_creates_001 [("20250101zzz", false), ("other", true)] "20250101"
      (by decide) (by decide)⟩

/-- C6: resolving the active day folder is idempotent within a session:
calling `start_new_day` again on the root state it left behind, with
nothing created in between, yields the identical root state and the
identical day folder. -/
theorem resolve_idempotent (entries : RootDir) (today : String) (fs' : RootDir)
    (f : String) (h : start_new_day entries today = some (fs', f)) :
    start_new_day fs' today = some (fs', f) := by
  simp only [start_new_day] at h
  cases hlast : (sortStr ((entries.filter
      (fun e => e.2 && strStartsWith e.1 today)).map Prod.fst)).getLast? with
  | some m =>
    rw [hlast] at h
    simp only [Option.some.injEq, Prod.mk.injEq] at h
    obtain ⟨hfs, hf⟩ := h
    subst hfs; subst hf
    simp only [start_new_day]
    rw [hlast]
  | none =>
    rw [hlast] at h
    have hexnil :
        (entries.filter (fun e => e.2 && strStartsWith e.1 today)).map
          Prod.fst = [] :=
      sortStr_eq_nil _ (getLast?_eq_none _ hlast)
    have hfilnil : entries.filter (fun e => e.2 && strStartsWith e.1 today) = [] :=
      List.map_eq_nil_iff.mp hexnil
    cases hff : firstFreeNum (entries.map Prod.fst) today 1
        (entries.length + 1) with
    | none => rw [hff] at h; simp at h
    | some n =>
      rw [hff] at h
      simp only [Option.some.injEq, Prod.mk.injEq] at h
      obtain ⟨hfs, hf⟩ := h
      subst hfs; subst hf
      simp only [start_new_day, List.filter_append, hfilnil, List.nil_append,
        List.filter_cons, List.filter_nil]
      rw [show ((candName today n, true).2 &&
          strStartsWith (candName today n, true).1 today) = true by
        simp [strStartsWith_cand]]
      simp only [if_true, List.map_cons, List.map_nil, sortStr_singleton]
      rfl

theorem resolve_idempotent_witness :
    start_new_day [] "20250101" = some ([(candName "20250101" 1, true)],
      candName "20250101" 1) ∧
    start_new_day [(candName "20250101" 1, true)] "20250101" =
      some ([(candName "20250101" 1, true)], candName "20250101" 1) := by
  refine ⟨by decide, ?_⟩
  have h := resolve_idempotent [] "20250101" [(candName "20250101" 1, true)]
    (candName "20250101" 1) (by decide)
  exact h

/-- C7: `get_last_entry` returns `none` when the folder does not exist,
when it contains no `.hourlies` file, or when reading the selected file
fails (the function is total, so it never raises); otherwise it returns the
read result of the lexicographically last `.hourlies` file. -/
theorem getLastEntry_spec (dirExists : Bool) (files : DayDir) :
    (dirExists = false → get_last_entry dirExists files = none) ∧
    ((files.map Prod.fst).filter (fun f => strEndsWith f ".hourlies") = [] →
      get_last_entry dirExists files = none) ∧
    ((files.map Prod.fst).filter (fun f => strEndsWith f ".hourlies") ≠ [] →
      ∃ last,
        last ∈ (files.map Prod.fst).filter (fun f => strEndsWith f ".hourlies") ∧
        (∀ x ∈ (files.map Prod.fst).filter (fun f => strEndsWith f ".hourlies"),
          StrLe x last) ∧
        get_last_entry true files = (files.lookup last).join ∧
        (files.lookup last = some none → get_last_entry true files = none)) := by
  refine ⟨?_, ?_, ?_⟩
  · intro h; rw [h]; rfl
  · intro h
    cases dirExists with
    | false => rfl
    | true =>
      simp only [get_last_entry, Bool.not_true, Bool.false_eq_true, if_false,
        h, sortStr_nil, List.getLast?_nil]
  · intro hne
    obtain ⟨m, hlast, hmem, hmax⟩ := sortStr_getLast_max _ hne
    have heq : get_last_entry true files = (files.lookup m).join := by
      simp only [get_last_entry, Bool.not_true, Bool.false_eq_true, if_false]
      rw [hlast]
    exact ⟨m, hmem, hmax, heq, fun hread => by rw [heq, hread]; rfl⟩

theorem getLastEntry_spec_witness :
    get_last_entry true [("202501011200.hourlies", some "a"),
      ("202501011300.hourlies", some "b")] = some "b" ∧
    get_last_entry true [] = none ∧
    get_last_entry false [("202501011200.hourlies", some "a")] = none := by
  refine ⟨by decide, by decide, ?_⟩
  exact (getLastEntry_spec false [("202501011200.hourlies", some "a")]).1 rfl

/-- C8: for a save whose stripped content is non-empty, the content written
by `save_entry` and then read back directly from the folder (file contents
are modelled as the exact UTF-8 text string) equals that content exactly. -/
theorem saveEntry_roundtrip (dirExists : Bool) (dir : DayDir) (raw : String)
    (reuse : Bool) (now : DateTime) (hv : Valid now) (hy0 : 1000 ≤ now.year)
    (hyN : (addMinutes now dir.length).year ≤ 9999)
    (hs : stripPy raw ≠ "") :
    ∃ dir' nm, save_entry dirExists dir raw reuse now =
        some (.wrote dir' nm (stripPy raw)) ∧
      dir'.lookup nm = some (some (stripPy raw)) := by
  obtain ⟨nm, hsave, hfree⟩ :=
    save_entry_succeeds dirExists dir raw reuse now hv hy0 hyN hs
  exact ⟨_, nm, hsave, lookup_append_fresh dir nm _ hfree⟩

theorem saveEntry_roundtrip_witness :
    ∃ dir' nm, save_entry true [] " note \n" true ⟨2025, 3, 31, 23, 59⟩ =
        some (.wrote dir' nm (stripPy " note \n")) ∧
      dir'.lookup nm = some (some (stripPy " note \n")) :=
  saveEntry_roundtrip true [] " note \n" true ⟨2025, 3, 31, 23, 59⟩
    (by decide) (by decide) (by decide) (by decide)

/-- C9: if the configuration file exists but is unreadable or invalid,
`load_config` returns the defaults without raising (the model is total);
if it is readable, keys present keep their loaded values and keys missing
from it are filled in from the defaults. -/
theorem loadConfig_defaults {α : Type} (defaults : List (String × α)) :
    load_config defaults .unreadable = defaults ∧
    load_config defaults .missing = defaults ∧
    ∀ kvs : List (String × α),
      (∀ k v, kvs.lookup k = some v →
        (load_config defaults (.readable kvs)).lookup k = some v) ∧
      (∀ k, kvs.lookup k = none →
        (load_config defaults (.readable kvs)).lookup k = defaults.lookup k) :=
  ⟨rfl, rfl, fun kvs =>
    ⟨fun k v h => mergeDefaults_lookup_present defaults kvs k v h,
     fun k h => mergeDefaults_lookup_absent defaults kvs k h⟩⟩

theorem loadConfig_defaults_witness :
    load_config [("popup_at_minute", 0), ("window_width", 600)]
        ConfigSource.unreadable =
      [("popup_at_minute", 0), ("window_width", 600)] ∧
    (load_config [("popup_at_minute", 0), ("window_width", 600)]
        (.readable [("popup_at_minute", 30)])).lookup "popup_at_minute" =
      some 30 ∧
    (load_config [("popup_at_minute", 0), ("window_width", 600)]
        (.readable [("popup_at_minute", 30)])).lookup "window_width" =
      some 600 := by
  refine ⟨(loadConfig_defaults _).1, ?_, ?_⟩
  · exact ((loadConfig_defaults _).2.2 _).1 "popup_at_minute" 30 (by decide)
  · have h := ((loadConfig_defaults [("popup_at_minute", 0),
      ("window_width", 600)]).2.2 [("popup_at_minute", 30)]).2
      "window_width" (by decide)
    rw [h]
    decide

/-- C10: `save_entry` strips the submitted text before the empty check and
before writing: whitespace-only input strips to empty and is treated as
empty (nothing is written unless the reuse-last-entry fallback supplies the
previous entry's content), and whenever the stripped text is non-empty the
content written is exactly the stripped text, never the raw input. -/
theorem saveEntry_strips (dirExists : Bool) (dir : DayDir) (raw : String)
    (reuse : Bool) (now : DateTime) :
    ((∀ ch ∈ raw.data, isPySpace ch = true) → stripPy raw = "") ∧
    (stripPy raw = "" → reuse = false →
      save_entry dirExists dir raw reuse now = some .noWrite) ∧
    (stripPy raw = "" → get_last_entry dirExists dir = none →
      save_entry dirExists dir raw reuse now = some .noWrite) ∧
    (∀ dir' nm c, stripPy raw = "" →
      save_entry dirExists dir raw reuse now = some (.wrote dir' nm c) →
      get_last_entry dirExists dir = some c) ∧
    (∀ dir' nm c, stripPy raw ≠ "" →
      save_entry dirExists dir raw reuse now = some (.wrote dir' nm c) →
      c = stripPy raw) := by
  refine ⟨stripPy_all_space raw, ?_, ?_, ?_, ?_⟩
  · intro hs hr
    simp only [save_entry]
    rw [if_pos hs, hr]
    rfl
  · intro hs hg
    simp only [save_entry]
    rw [if_pos hs]
    cases hr : reuse with
    | false => rfl
    | true => rw [hg]; rfl
  · intro dir' nm c hs h
    rcases save_entry_wrote_content dirExists dir raw reuse now dir' nm c h with
      ⟨hne, _⟩ | ⟨_, _, hlastc⟩
    · exact absurd hs hne
    · exact hlastc
  · intro dir' nm c hs h
    rcases save_entry_wrote_content dirExists dir raw reuse now dir' nm c h with
      ⟨_, hc⟩ | ⟨heq, _, _⟩
    · exact hc
    · exact absurd heq hs

theorem saveEntry_strips_witness :
    stripPy "  \t\n " = "" ∧
    save_entry true [] "  \t\n " false ⟨2025, 1, 1, 12, 0⟩ =
      some SaveOutcome.noWrite := by
  have h := saveEntry_strips true [] "  \t\n " false ⟨2025, 1, 1, 12, 0⟩
  exact ⟨h.1 (by decide), h.2.1 (by decide) rfl⟩

end Hourlies
